import Mathlib

/-!
# Verification of the `memories` versioned key-value store

Shallow embedding of the core of the `memories` repository
(`internal/memory.go`, `internal/gogit.go`, `internal/hook.go`,
`internal/scope.go` and the CLI hook runner) in Lean 4, together with
proofs and refutations of the testable properties stated in the spec.

Go byte slices are modelled as `String` (byte-equality is string
equality), file modification times as `Nat`, and the filesystem visible
to one scope as an association list from relative path to file entry.
-/

set_option autoImplicit false

namespace Memories

/-! ## Key validation (`internal/memory.go`, `NewKey` / `keyPattern`)

`keyPattern = ^[a-zA-Z0-9][a-zA-Z0-9._-]* (plus slash) anchored`. -/

/-- A character admissible as the first character of a key:
`[a-zA-Z0-9]` (Go's regexp classes here are ASCII). -/
def isKeyHead (c : Char) : Bool :=
  (('a' ≤ c && c ≤ 'z') || ('A' ≤ c && c ≤ 'Z') || ('0' ≤ c && c ≤ '9'))

/-- A character admissible after the first: alphanumeric, dot, underscore, slash or dash. -/
def isKeyTail (c : Char) : Bool :=
  isKeyHead c || c = '.' || c = '_' || c = '/' || c = '-'

/-- `NewKey` succeeds exactly on these strings: non-empty, first char in
`[a-zA-Z0-9]`, rest in the tail class (anchored regexp `keyPattern`). -/
def validKey (s : String) : Bool :=
  match s.data with
  | [] => false
  | c :: cs => isKeyHead c && cs.all isKeyTail

/-! ## The worktree file store (`internal/gogit.go`, CRUD half)

`GitRepository.Get/Save/Delete/List/Exists` act on the files under the
scope's root path.  `keyToPath` joins the root with the key string and
the staged path is the same relative path again, so the store is modelled
directly on relative paths. -/

/-- Metadata of one on-disk file: its content bytes and its modification
time (`os.FileInfo.ModTime`). -/
structure FileInfo where
  content : String
  mtime : Nat
  deriving Repr, DecidableEq

/-- The worktree: relative path ↦ file. Paths are unique in a filesystem;
`saveFile` preserves that by replacing in place. -/
def Worktree := List (String × FileInfo)

/-- Look a path up in the worktree (models `os.Stat` + `os.ReadFile`). -/
def lookupFile : List (String × FileInfo) → String → Option FileInfo
  | [], _ => none
  | (q, fi) :: rest, p => if q = p then some fi else lookupFile rest p

/-- Write a file at a path (models `os.WriteFile`: create or overwrite). -/
def writeFile : List (String × FileInfo) → String → FileInfo → List (String × FileInfo)
  | [], p, fi => [(p, fi)]
  | (q, old) :: rest, p, fi =>
    if q = p then (p, fi) :: rest else (q, old) :: writeFile rest p fi

/-- Remove a file at a path (models `os.Remove` via `worktree.Remove`). -/
def removeFile (fs : List (String × FileInfo)) (p : String) : List (String × FileInfo) :=
  fs.filter (fun e => ¬ e.1 = p)

/-- Split a character list at every occurrence of a separator character
(models Go `strings.Split` for a one-character separator, and the
per-component view used by `filepath.Walk`). -/
def splitOnChar (sep : Char) : List Char → List (List Char)
  | [] => [[]]
  | c :: rest =>
    if c = sep then [] :: splitOnChar sep rest
    else
      match splitOnChar sep rest with
      | [] => [[c]]
      | l :: ls => (c :: l) :: ls

/-- The `/`-separated components of a relative path. -/
def splitSeg (p : String) : List String :=
  (splitOnChar '/' p.data).map fun l => String.mk l

/-- `startsWithChars pat s`: `pat` is a prefix of `s`
(models Go `strings.HasPrefix`). -/
def startsWithChars : List Char → List Char → Bool
  | [], _ => true
  | _ :: _, [] => false
  | p :: ps, c :: cs => p = c && startsWithChars ps cs

/-- `strings.HasPrefix s pat`. -/
def strHasPre (s pat : String) : Bool :=
  startsWithChars pat.data s.data

/-- Whether `filepath.Walk` over the root surfaces the file at relative
path `p`: every directory component must differ from `.mem` and
`.mem-init` (those subtrees are `SkipDir`-pruned), and the file's base
name must not be `.mem-init` (the sentinel file is skipped). -/
def walkVisible (p : String) : Bool :=
  (splitSeg p).dropLast.all (fun d => d != ".mem" && d != ".mem-init") &&
  ((splitSeg p).getLast? != some ".mem-init")

/-- Error taxonomy of the store (`internal/memory.go`). -/
inductive MemErr where
  | notFound
  | invalidKey
  deriving Repr, DecidableEq

/-- A `Memory` as returned over the public interface
(`internal/memory.go`): key, content and the two timestamps. -/
structure Memory where
  key : String
  content : String
  createdAt : Nat
  updatedAt : Nat
  deriving Repr, DecidableEq

/-- State of one open `GitRepository` as far as the CRUD operations see
it: the worktree files and the set of staged paths. -/
structure RepoState where
  files : List (String × FileInfo)
  staged : List String
  deriving Repr, DecidableEq

namespace GitRepository

/-- `GitRepository.Get`: stat the mapped path (absent ⇒ `ErrNotFound`),
read the bytes, and build a `Memory` whose `CreatedAt` and `UpdatedAt`
are both the file's `ModTime`. -/
def Get (st : RepoState) (key : String) : Except MemErr Memory :=
  match lookupFile st.files key with
  | none => .error .notFound
  | some fi => .ok ⟨key, fi.content, fi.mtime, fi.mtime⟩

/-- `GitRepository.Save`: write the bytes at the mapped path (the write
sets the file's modification time to the current clock `now`) and stage
the relative path via `worktree.Add`. -/
def Save (st : RepoState) (key content : String) (now : Nat) : RepoState :=
  { files := writeFile st.files key ⟨content, now⟩
    staged := if st.staged.contains key then st.staged else key :: st.staged }

/-- `GitRepository.Exists`: stat-based boolean. -/
def Exists (st : RepoState) (key : String) : Bool :=
  (lookupFile st.files key).isSome

/-- `GitRepository.Delete`: stat first (absent ⇒ `ErrNotFound`), then
`worktree.Remove` deletes the file and stages the deletion. -/
def Delete (st : RepoState) (key : String) : Except MemErr RepoState :=
  match lookupFile st.files key with
  | none => .error .notFound
  | some _ =>
    .ok { files := removeFile st.files key
          staged := if st.staged.contains key then st.staged else key :: st.staged }

end GitRepository

/-- `GitRepository.List` (named `ListMemories` here because `List` is the
Lean list type): walk the working root; prune directories named `.mem` or
`.mem-init` and skip the `.mem-init` sentinel file; skip entries not
matching the prefix (`prefix != "" && !strings.HasPrefix(relPath, prefix)`);
silently skip paths rejected by `NewKey`; read each remaining file into a
`Memory` whose `CreatedAt` and `UpdatedAt` are both the file's `ModTime`. -/
def ListMemories (st : RepoState) (pfx : String) : List Memory :=
  st.files.filterMap fun e =>
    if !(walkVisible e.1) then none
    else if pfx != "" && !(strHasPre e.1 pfx) then none
    else if !(validKey e.1) then none
    else some ⟨e.1, e.2.content, e.2.mtime, e.2.mtime⟩

/-! ### Basic lookup lemmas -/

theorem lookupFile_writeFile_self (fs : List (String × FileInfo)) (p : String) (fi : FileInfo) :
    lookupFile (writeFile fs p fi) p = some fi := by
  induction fs with
  | nil => simp [writeFile, lookupFile]
  | cons e rest ih =>
    obtain ⟨q, old⟩ := e
    by_cases h : q = p
    · simp [writeFile, lookupFile, h]
    · simp [writeFile, lookupFile, h, ih]

theorem lookupFile_removeFile_self (fs : List (String × FileInfo)) (p : String) :
    lookupFile (removeFile fs p) p = none := by
  induction fs with
  | nil => simp [removeFile, lookupFile]
  | cons e rest ih =>
    obtain ⟨q, old⟩ := e
    by_cases h : q = p
    · simpa [removeFile, h] using ih
    · simpa [removeFile, lookupFile, h] using ih

/-! ## Commit history (`internal/gogit.go`, history half)

The version-control engine (go-git) is the collaborator of §6 of the
spec; the two engine facts `GitRepository.Commit` relies on are
modelled: `worktree.Commit` fails with `ErrEmptyCommit` when nothing is
staged against HEAD, and otherwise appends one commit object whose hash
is a fresh content address (SHA1 content-addressing over parent, tree
and metadata is modelled by an injective fresh-hash function). -/

/-- Go's `unicode.IsSpace` restricted to the ASCII range relevant for
`strings.TrimSpace` on commit messages. -/
def isSpaceGo (c : Char) : Bool :=
  c = ' ' || c = '\t' || c = '\n' || c = '\r' || c = '\x0b' || c = '\x0c'

/-- `strings.TrimSpace`: strip leading and trailing whitespace. -/
def trimSpace (s : String) : String :=
  String.mk (((s.data.dropWhile isSpaceGo).reverse.dropWhile isSpaceGo).reverse)

/-- A commit object as stored by the engine. -/
structure EngineCommit where
  hash : String
  message : String
  author : String
  timestamp : Nat
  parents : List String
  deriving Repr, DecidableEq

/-- History state of one repository: the commits reachable from the
current branch head (HEAD first), and whether staged changes differing
from HEAD exist. -/
structure HistState where
  log : List EngineCommit
  staged : Bool
  deriving Repr, DecidableEq

/-- Fresh content hash for the `n`-th commit: injective, never empty
(models SHA1 content-addressing, which never collides in practice and
never produces an empty hex string). -/
def hashStr (n : Nat) : String :=
  String.mk (List.replicate (n + 1) 'h')

/-- Engine-level commit errors. -/
inductive EngErr where
  | emptyCommit
  deriving Repr, DecidableEq

/-- `worktree.Commit` of the engine: with a clean index it fails with
`ErrEmptyCommit`; otherwise it appends one commit carrying the given
message and author, parented on the previous HEAD, with a fresh hash. -/
def worktreeCommit (st : HistState) (message author : String) (now : Nat) :
    Except EngErr (EngineCommit × HistState) :=
  if st.staged then
    let c : EngineCommit :=
      ⟨hashStr st.log.length, message, author, now,
       match st.log with
       | [] => []
       | p :: _ => [p.hash]⟩
    Except.ok (c, ⟨c :: st.log, false⟩)
  else Except.error EngErr.emptyCommit

/-- The repository-level `Commit` record
(`{Hash, Message, Author, Timestamp, Parents}`). -/
structure Commit where
  hash : String
  message : String
  author : String
  timestamp : Nat
  parents : List String
  deriving Repr, DecidableEq

/-- `GitRepository.toCommit`: converts an engine commit, trimming
whitespace around the message. -/
def toCommit (c : EngineCommit) : Commit :=
  ⟨c.hash, trimSpace c.message, c.author, c.timestamp, c.parents⟩

/-- `GitRepository.Commit`: commits the staged changes under the fixed
store-owned identity (`DefaultAuthor = "mem"`) and returns the new
commit via `toCommit`. -/
def commitOp (st : HistState) (message : String) (now : Nat) :
    Except EngErr (Commit × HistState) :=
  match worktreeCommit st message "mem" now with
  | Except.error e => Except.error e
  | Except.ok (c, st') => Except.ok (toCommit c, st')

/-- `GitRepository.Log`: commits in reverse-chronological order from the
current branch head; `limit ≤ 0` means unbounded. -/
def logOp (st : HistState) (limit : Int) : List Commit :=
  if limit > 0 then (st.log.take limit.toNat).map toCommit
  else st.log.map toCommit

/-- Invariant tying the engine's content-addressing model to the log:
the `n` commits carry the hashes of indices `n-1, …, 0`. Holds for the
empty log and is preserved by `commitOp`. -/
def HistInv (st : HistState) : Prop :=
  st.log.map (fun c => c.hash) = ((List.range st.log.length).reverse).map hashStr

theorem hashStr_length (n : Nat) : (hashStr n).length = n + 1 := by
  show (List.replicate (n + 1) 'h').length = n + 1
  simp

theorem hashStr_injective : Function.Injective hashStr := by
  intro a b h
  have := congrArg String.length h
  rw [hashStr_length, hashStr_length] at this
  omega

theorem hashStr_fresh (n : Nat) :
    hashStr n ∉ ((List.range n).reverse).map hashStr := by
  intro hmem
  rw [List.mem_map] at hmem
  obtain ⟨k, hk, heq⟩ := hmem
  rw [List.mem_reverse, List.mem_range] at hk
  exact absurd (hashStr_injective heq) (by omega)

/-- The engine commit `worktreeCommit` creates for the store-owned
identity (`DefaultAuthor = "mem"`). -/
def newEC (st : HistState) (message : String) (now : Nat) : EngineCommit :=
  ⟨hashStr st.log.length, message, "mem", now,
   match st.log with
   | [] => []
   | p :: _ => [p.hash]⟩

theorem range_succ_reverse_map (n : Nat) :
    ((List.range (n + 1)).reverse).map hashStr =
      hashStr n :: ((List.range n).reverse).map hashStr := by
  rw [List.range_succ]
  simp

/-! ## Scope resolution (`internal/scope.go`) -/

/-- `ScopeType`: project-local or user-global store. -/
inductive ScopeType where
  | project
  | global
  deriving Repr, DecidableEq

/-- A `Scope`: its type, working root (`Path`) and metadata directory
(`MemPath`). -/
structure Scope where
  type : ScopeType
  path : String
  memPath : String
  deriving Repr, DecidableEq

/-- A `ScopeResolver` as one CLI invocation sees it: the cached home
directory, and the result of `findProjectScope` (walking up from the
current directory for a `.mem` directory), which is an environment fact
fixed for the invocation — `some s` when a project scope is discoverable,
`none` otherwise. -/
structure ScopeResolver where
  homeDir : String
  projectScope : Option Scope
  deriving Repr, DecidableEq

/-- `ScopeResolver.Global`: the fixed scope under the home directory,
with metadata at `<home>/.mem`. -/
def ScopeResolver.Global (r : ScopeResolver) : Scope :=
  ⟨ScopeType.global, r.homeDir, r.homeDir ++ "/.mem"⟩

/-- `ScopeResolver.Resolve`: `"global"` wins outright; else the project
scope when found; else the global scope. -/
def ScopeResolver.Resolve (r : ScopeResolver) (explicit : String) : Scope :=
  if explicit = "global" then r.Global
  else
    match r.projectScope with
    | some s => s
    | none => r.Global

/-- `ScopeResolver.Cascade`: the project scope first when found, then
always the global scope. -/
def ScopeResolver.Cascade (r : ScopeResolver) : List Scope :=
  (match r.projectScope with
   | some s => [s]
   | none => []) ++ [r.Global]

/-! ## Hook install / uninstall (`internal/hook.go`) -/

/-- The marker identifying a mem-managed hook (`HookMarker`). -/
def HookMarker : String := "# mem: managed post-commit hook"

/-- `HookScript`: the shell shim written into `.git/hooks`. -/
def HookScript (hookType : String) : String :=
  "#!/bin/sh\n" ++ HookMarker ++ "\nexec mem hook run " ++ hookType ++ " \"$@\"\n"

/-- `containsSub needle hay`: `needle` occurs as a contiguous substring
of `hay` (models Go `strings.Contains`). -/
def containsSub (needle : List Char) : List Char → Bool
  | [] => needle.isEmpty
  | c :: rest => startsWithChars needle (c :: rest) || containsSub needle rest

/-- `IsManagedHook`: the content contains the marker. -/
def IsManagedHook (content : String) : Bool :=
  containsSub HookMarker.data content.data

/-- The persisted per-scope hook configuration
(`PostCommitHookConfig`: Enabled, Scope, Strategy, Script, KeyPrefix,
Quiet). `KeyPrefix` is named `keyPref` here. -/
structure PostCommitHookConfig where
  enabled : Bool
  scope : String
  strategy : String
  script : String
  keyPref : String
  quiet : Bool
  deriving Repr, DecidableEq

/-- The zero value of `PostCommitHookConfig`, written by `Uninstall` when
the configuration is not kept. -/
def emptyHookCfg : PostCommitHookConfig :=
  ⟨false, "", "", "", "", false⟩

/-- State touched by hook install/uninstall: the `post-commit` hook file
(if present), its `.bak` backup file (if present) and the persisted hook
configuration. -/
structure HookDirState where
  hook : Option String
  bak : Option String
  cfg : PostCommitHookConfig
  deriving Repr, DecidableEq

/-- `InstallHookUseCase.Execute`: read the pre-existing hook if any; an
unmarked pre-existing hook is refused without `force` and backed up to
`<hook>.bak` with it; then the shim is written and the hook
configuration persisted (`Enabled = true`, strategy defaulting to
`extract`, key prefix `hooks/commits`). Config load/save is modelled as
succeeding. `installCfg` is the configuration record `Install` writes. -/
def installCfg (scopeHint strategy script : String) : PostCommitHookConfig :=
  { enabled := true
    scope := scopeHint
    strategy := if strategy = "" then "extract" else strategy
    script := script
    keyPref := "hooks/commits"
    quiet := false }

/-- `InstallHookUseCase.Execute` proper (see `installCfg` above). -/
def InstallHookExecute (st : HookDirState) (scopeHint strategy script : String)
    (force : Bool) : Except String HookDirState :=
  match st.hook with
  | some existing =>
    if !(IsManagedHook existing) then
      if !force then Except.error "hook already exists (use --force to overwrite)"
      else
        Except.ok ⟨some (HookScript "post-commit"), some existing,
          installCfg scopeHint strategy script⟩
    else
      Except.ok ⟨some (HookScript "post-commit"), st.bak,
        installCfg scopeHint strategy script⟩
  | none =>
    Except.ok ⟨some (HookScript "post-commit"), st.bak,
      installCfg scopeHint strategy script⟩

/-- `UninstallHookUseCase.Execute`: refuse an unmanaged hook; otherwise
restore the backup over the hook (deleting the backup) when one exists,
else delete the hook; clear the persisted configuration unless
`keepConfig`. An absent hook file is not an error. -/
def UninstallHookExecute (st : HookDirState) (keepConfig : Bool) :
    Except String HookDirState :=
  match st.hook with
  | some content =>
    if !(IsManagedHook content) then Except.error "hook is not managed by mem"
    else
      let st1 : HookDirState :=
        match st.bak with
        | some b => { st with hook := some b, bak := none }
        | none => { st with hook := none }
      Except.ok (if keepConfig then st1 else { st1 with cfg := emptyHookCfg })
  | none => Except.ok (if keepConfig then st else { st with cfg := emptyHookCfg })

/-! ## Extract strategy (`internal/hook.go`, `StrategyExtract`)

The five regexps are modelled by direct scanners with Go `regexp`
(leftmost, Perl-style greedy) semantics:
  * `(?m)` anchored file-line patterns match whole lines, since `.`
    excludes the newline and `$` stops before it;
  * the declaration patterns `(?m)^\+.*<kw>\s[+](\w[+])` pick, per
    matching line, the rightmost keyword occurrence on that line that is
    followed by whitespace (which may cross newlines) and a word — the
    greedy `.*` prefers later occurrences — and `FindAllStringSubmatch`
    resumes scanning after the captured word, so a later line partially
    consumed by a capture cannot begin a new match. -/

/-- The hook input (`CommitContext`): hash, message, author, diff. -/
structure CommitContext where
  hash : String
  message : String
  author : String
  diff : String
  deriving Repr, DecidableEq

/-- `\w` of Go regexp: `[0-9A-Za-z_]`. -/
def isWordChar (c : Char) : Bool :=
  ('a' ≤ c && c ≤ 'z') || ('A' ≤ c && c ≤ 'Z') || ('0' ≤ c && c ≤ '9') || c = '_'

/-- `\s` of Go regexp: `[\t\n\f\r ]` (newline included). -/
def isRegexSpace (c : Char) : Bool :=
  c = '\t' || c = '\n' || c = '\x0c' || c = '\r' || c = ' '

/-- Strip a literal pattern from the front: `some rest` when the input
starts with the pattern. -/
def stripPre : List Char → List Char → Option (List Char)
  | [], rest => some rest
  | _ :: _, [] => none
  | p :: ps, c :: cs => if c = p then stripPre ps cs else none

/-- Match `\s[+](\w[+])` (one-plus whitespace, then a captured one-plus
word-character run): returns the capture and the text after it. -/
def captureWordFull (cs : List Char) : Option (List Char × List Char) :=
  match cs with
  | c :: rest =>
    if isRegexSpace c then
      let rest' := rest.dropWhile isRegexSpace
      let w := rest'.takeWhile isWordChar
      if w.isEmpty then none else some (w, rest'.drop w.length)
    else none
  | [] => none

/-- Within one line (scanning stops at a newline), the rightmost keyword
occurrence followed by a successful `\s[+](\w[+])` — the choice the
greedy `.*` makes. Returns the capture and the remaining text. -/
def lastKwCapture (kw : List Char) : List Char → Option (List Char × List Char)
  | [] => none
  | c :: rest =>
    if c = '\n' then none
    else
      match lastKwCapture kw rest with
      | some r => some r
      | none =>
        match stripPre kw (c :: rest) with
        | some after => captureWordFull after
        | none => none

/-- Skip past the next newline: the next `^` anchor position. -/
def skipPastNl : List Char → List Char
  | [] => []
  | c :: rest => if c = '\n' then rest else skipPastNl rest

theorem skipPastNl_length_le : ∀ l : List Char, (skipPastNl l).length ≤ l.length := by
  intro l
  induction l with
  | nil => simp [skipPastNl]
  | cons c rest ih =>
    by_cases h : c = '\n'
    · simp [skipPastNl, h]
    · simp only [skipPastNl, if_neg h]
      exact le_trans ih (by simp)

theorem skipPastNl_lt_of_le (sfx rest : List Char) (c : Char)
    (h : sfx.length ≤ rest.length) :
    (skipPastNl sfx).length < (c :: rest).length :=
  lt_of_le_of_lt (le_trans (skipPastNl_length_le sfx) h) (by simp)

theorem skipPastNl_length_lt (c : Char) (rest : List Char) :
    (skipPastNl (c :: rest)).length < (c :: rest).length := by
  by_cases h : c = '\n'
  · simp [skipPastNl, h]
  · simp only [skipPastNl, if_neg h, List.length_cons]
    exact Nat.lt_succ_of_le (skipPastNl_length_le rest)

theorem stripPre_length_le :
    ∀ (kw l after : List Char), stripPre kw l = some after → after.length ≤ l.length := by
  intro kw
  induction kw with
  | nil =>
    intro l after h
    cases h
    exact le_rfl
  | cons p ps ih =>
    intro l after h
    cases l with
    | nil => exact absurd h (by simp [stripPre])
    | cons c cs =>
      rw [stripPre] at h
      by_cases hc : c = p
      · rw [if_pos hc] at h
        exact le_trans (ih cs after h) (by simp)
      · rw [if_neg hc] at h
        exact absurd h (by simp)

theorem captureWordFull_length_le (cs w sfx : List Char)
    (h : captureWordFull cs = some (w, sfx)) : sfx.length ≤ cs.length := by
  cases cs with
  | nil => exact absurd h (by simp [captureWordFull])
  | cons c rest =>
    rw [captureWordFull] at h
    by_cases hc : isRegexSpace c
    · rw [if_pos hc] at h
      by_cases he : (List.takeWhile isWordChar (rest.dropWhile isRegexSpace)).isEmpty
      · rw [if_pos he] at h
        exact absurd h (by simp)
      · rw [if_neg he] at h
        have h2 := (Prod.mk.injEq _ _ _ _) ▸ Option.some.inj h
        rw [← h2.2]
        calc ((rest.dropWhile isRegexSpace).drop
                ((rest.dropWhile isRegexSpace).takeWhile isWordChar).length).length
            ≤ (rest.dropWhile isRegexSpace).length := (List.drop_sublist _ _).length_le
          _ ≤ rest.length := (List.dropWhile_sublist _).length_le
          _ ≤ (c :: rest).length := by simp
    · rw [if_neg hc] at h
      exact absurd h (by simp)

theorem lastKwCapture_length_le :
    ∀ (kw l w sfx : List Char), lastKwCapture kw l = some (w, sfx) → sfx.length ≤ l.length := by
  intro kw l
  induction l with
  | nil =>
    intro w sfx h
    exact absurd h (by simp [lastKwCapture])
  | cons c rest ih =>
    intro w sfx h
    rw [lastKwCapture] at h
    split at h
    · exact absurd h (by simp)
    · split at h
      · rename_i heq2
        obtain rfl := Option.some.inj h
        exact le_trans (ih _ _ heq2) (by simp)
      · split at h
        · rename_i after hs
          exact le_trans (captureWordFull_length_le after w sfx h)
            (stripPre_length_le kw (c :: rest) after hs)
        · exact absurd h (by simp)

/-- All captures of `(?m)^<marker>.*<kw>\s[+](\w[+])` over the text, in
order, with `FindAllStringSubmatch`'s non-overlapping scan: the text is
inspected line start by line start; after a successful capture the scan
resumes at the line start following the capture. -/
def scanDecls (marker : Char) (kw : List Char) : List Char → List (List Char)
  | [] => []
  | c :: rest =>
    if c = marker then
      match h : lastKwCapture kw rest with
      | some (w, sfx) => w :: scanDecls marker kw (skipPastNl sfx)
      | none => scanDecls marker kw (skipPastNl (c :: rest))
    else scanDecls marker kw (skipPastNl (c :: rest))
termination_by l => l.length
decreasing_by
  · rename_i h
    exact skipPastNl_lt_of_le _ _ _ (lastKwCapture_length_le _ _ _ _ h)
  · exact skipPastNl_length_lt _ _
  · exact skipPastNl_length_lt _ _

/-- The lines of a string (Go `strings.Split(s, "\n")` view used to
state line-membership facts). -/
def linesOf (s : String) : List String :=
  (splitOnChar '\n' s.data).map fun l => String.mk l

/-- Captures of the added-file line pattern: for each line of the diff
that starts with `+++ b/` and has a non-empty remainder, that
remainder. -/
def addedFileLines (diff : List Char) : List (List Char) :=
  (splitOnChar '\n' diff).filterMap fun line =>
    match stripPre ("+++ b/".data) line with
    | some rest => if rest.isEmpty then none else some rest
    | none => none

/-- Captures of the deleted-file line pattern `--- a/`. -/
def deletedFileLines (diff : List Char) : List (List Char) :=
  (splitOnChar '\n' diff).filterMap fun line =>
    match stripPre ("--- a/".data) line with
    | some rest => if rest.isEmpty then none else some rest
    | none => none

/-- `newFiles`: added-file captures other than `/dev/null` that have no
paired `--- a/` capture (the `deletedSet` check). -/
def newFilesOf (diff : List Char) : List (List Char) :=
  (addedFileLines diff).filterMap fun name =>
    if name = "/dev/null".data then none
    else if name ∈ (deletedFileLines diff).filter (fun n => n ≠ "/dev/null".data)
    then none
    else some name

/-- `removedFiles`: deleted-file captures other than `/dev/null` that
appear in no added-file capture. -/
def removedFilesOf (diff : List Char) : List (List Char) :=
  (deletedFileLines diff).filterMap fun name =>
    if name = "/dev/null".data then none
    else if name ∈ addedFileLines diff then none
    else some name

/-- `endsWithL sfx l`: `l` ends with `sfx`. -/
def endsWithL (sfx l : List Char) : Bool :=
  startsWithChars sfx.reverse l.reverse

/-- `configFileRe`: the name ends in `.yaml`, `.yml`, `.json` or
`.toml` (the pattern is anchored at the end of the name and has no
multi-line flag). -/
def isConfigFile (name : List Char) : Bool :=
  endsWithL (".yaml".data) name || endsWithL (".yml".data) name ||
  endsWithL (".json".data) name || endsWithL (".toml".data) name

/-- `configFiles`: added-file captures other than `/dev/null` matching
the configuration-extension pattern (collected regardless of the
`deletedSet` pairing). -/
def configFilesOf (diff : List Char) : List (List Char) :=
  (addedFileLines diff).filterMap fun name =>
    if name = "/dev/null".data then none
    else if isConfigFile name then some name else none

/-- `uniqueMatches`: deduplicate preserving first-seen order. -/
def uniqueMatches (ms : List (List Char)) : List (List Char) :=
  ms.foldl (fun acc m => if m ∈ acc then acc else acc ++ [m]) []

/-- `strings.Join xs sep` over character lists. -/
def joinSepL (sep : List Char) : List (List Char) → List Char
  | [] => []
  | [x] => x
  | x :: xs => x ++ sep ++ joinSepL sep xs

/-- The clause list `parts` of `StrategyExtract`, in source order:
added files, removed files, config changes, new funcs, new types,
removed funcs, removed types — each clause present only when its list
is non-empty. -/
def partsOf (diff : List Char) : List (List Char) :=
  (if (newFilesOf diff).isEmpty then []
   else ["added files: ".data ++ joinSepL (", ".data) (newFilesOf diff)]) ++
  (if (removedFilesOf diff).isEmpty then []
   else ["removed files: ".data ++ joinSepL (", ".data) (removedFilesOf diff)]) ++
  (if (configFilesOf diff).isEmpty then []
   else ["config changes: ".data ++ joinSepL (", ".data) (configFilesOf diff)]) ++
  (if (uniqueMatches (scanDecls '+' ("func".data) diff)).isEmpty then []
   else ["new funcs: ".data ++
     joinSepL (", ".data) (uniqueMatches (scanDecls '+' ("func".data) diff))]) ++
  (if (uniqueMatches (scanDecls '+' ("type".data) diff)).isEmpty then []
   else ["new types: ".data ++
     joinSepL (", ".data) (uniqueMatches (scanDecls '+' ("type".data) diff))]) ++
  (if (uniqueMatches (scanDecls '-' ("func".data) diff)).isEmpty then []
   else ["removed funcs: ".data ++
     joinSepL (", ".data) (uniqueMatches (scanDecls '-' ("func".data) diff))]) ++
  (if (uniqueMatches (scanDecls '-' ("type".data) diff)).isEmpty then []
   else ["removed types: ".data ++
     joinSepL (", ".data) (uniqueMatches (scanDecls '-' ("type".data) diff))])

/-- `parts` at string level. -/
def partsOfStr (diff : String) : List String :=
  (partsOf diff.data).map fun l => String.mk l

/-- The hash shortened to at most seven characters. -/
def shortHash7 (h : String) : String :=
  if h.data.length > 7 then String.mk (h.data.take 7) else h

/-- `strings.Join` at string level. -/
def joinSep (sep : String) : List String → String
  | [] => ""
  | [x] => x
  | x :: xs => x ++ sep ++ joinSep sep xs

/-- The one-line summary `StrategyExtract` composes from the short
hash, the commit message and the clauses. -/
def composeLine (hash message : String) (parts : List String) : String :=
  "[" ++ shortHash7 hash ++ "] " ++ message ++ " — " ++ joinSep "; " parts

/-- `StrategyExtract`: empty diff gives the empty result; no clause
found gives the empty result; otherwise the one composed line. The Go
function's error result is always `nil`, so the model returns the
string alone. -/
def StrategyExtract (cc : CommitContext) : String :=
  if cc.diff = "" then ""
  else if (partsOfStr cc.diff).isEmpty then ""
  else composeLine cc.hash cc.message (partsOfStr cc.diff)

/-! ### Lemmas about the line captures -/

theorem string_data_inj {a b : String} (h : a.data = b.data) : a = b := by
  cases a
  cases b
  exact congrArg String.mk h

theorem string_ne_data {a b : String} (h : a ≠ b) : a.data ≠ b.data :=
  fun hd => h (string_data_inj hd)

theorem stripPre_self_append :
    ∀ pre rest : List Char, stripPre pre (pre ++ rest) = some rest := by
  intro pre rest
  induction pre with
  | nil => rfl
  | cons p ps ih => simp [stripPre, ih]

theorem stripPre_eq_append :
    ∀ pre l rest : List Char, stripPre pre l = some rest → l = pre ++ rest := by
  intro pre
  induction pre with
  | nil =>
    intro l rest h
    cases h
    rfl
  | cons p ps ih =>
    intro l rest h
    cases l with
    | nil => exact absurd h (by simp [stripPre])
    | cons c cs =>
      rw [stripPre] at h
      by_cases hc : c = p
      · rw [if_pos hc] at h
        rw [hc, List.cons_append]
        exact congrArg _ (ih cs rest h)
      · rw [if_neg hc] at h
        exact absurd h (by simp)

theorem mem_addedFileLines {diff p : List Char}
    (hline : ("+++ b/".data ++ p) ∈ splitOnChar '\n' diff) (hne : p ≠ []) :
    p ∈ addedFileLines diff := by
  rw [addedFileLines, List.mem_filterMap]
  refine ⟨_, hline, ?_⟩
  cases p with
  | nil => exact absurd rfl hne
  | cons c cs => rfl

theorem mem_deletedFileLines_elim {diff p : List Char}
    (h : p ∈ deletedFileLines diff) :
    ∃ l ∈ splitOnChar '\n' diff, l = "--- a/".data ++ p := by
  rw [deletedFileLines, List.mem_filterMap] at h
  obtain ⟨l, hl, hf⟩ := h
  refine ⟨l, hl, ?_⟩
  split at hf
  · rename_i rest hs
    split at hf
    · exact absurd hf (by simp)
    · obtain rfl := Option.some.inj hf
      exact stripPre_eq_append _ _ _ hs
  · exact absurd hf (by simp)

theorem mem_newFilesOf {diff p : List Char}
    (hadd : p ∈ addedFileLines diff)
    (hdev : p ≠ "/dev/null".data)
    (hnodel : p ∉ deletedFileLines diff) :
    p ∈ newFilesOf diff := by
  rw [newFilesOf, List.mem_filterMap]
  refine ⟨p, hadd, ?_⟩
  rw [if_neg hdev, if_neg]
  intro hmem
  exact hnodel (List.mem_of_mem_filter hmem)

/-! ## Hook run (`internal/hook.go` `RunHookUseCase.Execute` together
with the CLI runner `makeHookRunRunner` of `cmd/mem`)

`RunHook(type, ctx)` is the composition the CLI exposes: the runner
rejects any hook type other than `post-commit` with an error before the
use case executes; the use case itself loads the configuration (a load
failure is silently tolerated), gates on `Enabled` and a non-empty
diff, and dispatches on the configured strategy. Strategy failures are
only warned about, so `Execute` always returns nil; the observable
effects are the store calls it makes, whether the external script runs,
and the error the CLI runner returns. The fire-and-forget reindex
callback is outside these claims. The summarize collaborator is an
optional pure completion function. -/

/-- Observable outcome of one `RunHook` call: the `(key, content)`
pairs passed to the injected store function, whether the script
strategy invoked the external script, and the error returned to the
caller. -/
structure HookResult where
  stores : List (String × String)
  scriptRan : Bool
  err : Option String
  deriving Repr, DecidableEq

/-- The prompt `StrategySummarize` builds. -/
def summarizePrompt (cc : CommitContext) : String :=
  "Summarize the following git commit in 1-3 sentences.\nFocus on what changed and why.\n\nCommit: "
  ++ cc.hash ++ "\nMessage: " ++ cc.message ++ "\n\nDiff:\n" ++ cc.diff

/-- `runExtract`: store the extract result under `key` unless it is
empty. -/
def runExtractM (cc : CommitContext) (key : String) : List (String × String) :=
  if StrategyExtract cc = "" then [] else [(key, StrategyExtract cc)]

/-- `runSummarize`: with no provider the strategy fails (warned only);
otherwise the completion of the prompt is stored under `key`. -/
def runSummarizeM (provider : Option (String → String)) (cc : CommitContext)
    (key : String) : List (String × String) :=
  match provider with
  | none => []
  | some f => [(key, f (summarizePrompt cc))]

/-- `RunHookUseCase.Execute`. `haveConfig` is whether `LoadConfig`
succeeded (a failure returns nil). -/
def RunHookExecute (haveConfig : Bool) (cfg : PostCommitHookConfig)
    (provider : Option (String → String)) (cc : CommitContext) : HookResult :=
  if !haveConfig then ⟨[], false, none⟩
  else if !cfg.enabled then ⟨[], false, none⟩
  else if cc.diff = "" then ⟨[], false, none⟩
  else
    let pre := if cfg.keyPref = "" then "hooks/commits" else cfg.keyPref
    let baseKey := pre ++ "/" ++ shortHash7 cc.hash
    let strat := if cfg.strategy = "" then "extract" else cfg.strategy
    if strat = "extract" then ⟨runExtractM cc baseKey, false, none⟩
    else if strat = "summarize" then ⟨runSummarizeM provider cc baseKey, false, none⟩
    else if strat = "script" then ⟨[], cfg.script ≠ "", none⟩
    else if strat = "all" then
      ⟨runExtractM cc baseKey ++ runSummarizeM provider cc (baseKey ++ "/summary"),
       cfg.script ≠ "", none⟩
    else ⟨[], false, none⟩

/-- `mem hook run <type>` (`makeHookRunRunner`): a type other than
`post-commit` is rejected with an error before the use case runs; an
error from `Execute` would only be printed, so the runner's error is
exactly the unsupported-type rejection. -/
def hookRun (haveConfig : Bool) (cfg : PostCommitHookConfig)
    (provider : Option (String → String)) (hookType : String) (cc : CommitContext) :
    HookResult :=
  if hookType ≠ "post-commit" then
    ⟨[], false, some ("unsupported hook type: " ++ hookType)⟩
  else RunHookExecute haveConfig cfg provider cc


/-! ## Pseudo-diff of the worktree against HEAD
(`internal/gogit.go`, `diffWorktreeVsHead`)

The engine facts used: `worktree.Status()` reports, per path, how the
staged state differs from the HEAD tree (`Added` / `Modified` /
`Deleted`; everything the model writes is staged, as `Save` leaves it),
and `headTree.File(path).Contents()` returns the HEAD blob. Go iterates
the status map in unspecified order; the model fixes one deterministic
enumeration of the involved paths, on which the claims do not depend.
Each `Fprintf` of the Go loop emits chunks terminated by `\n`, so a
block is the concatenation of its newline-terminated chunks. -/

/-- Look up a blob in the HEAD tree. -/
def lookupBlob : List (String × String) → String → Option String
  | [], _ => none
  | (q, c) :: rest, p => if q = p then some c else lookupBlob rest p

/-- The paths the status covers: every path present in the worktree or
in the HEAD tree (one deterministic enumeration). -/
def statusPaths (head : List (String × String)) (work : List (String × FileInfo)) :
    List String :=
  ((work.map Prod.fst) ++ (head.map Prod.fst)).dedup

/-- Per-path cleanliness: same content as HEAD (or absent from both). -/
def statusClean (head : List (String × String)) (work : List (String × FileInfo))
    (p : String) : Bool :=
  match lookupFile work p, lookupBlob head p with
  | some fi, some old => fi.content = old
  | none, none => true
  | _, _ => false

/-- `status.IsClean()`. -/
def isCleanB (head : List (String × String)) (work : List (String × FileInfo)) : Bool :=
  (statusPaths head work).all (statusClean head work)

/-- The newline-terminated chunks the Go loop writes for one path:
added files render `--- /dev/null`, `+++ b/<p>` and one `+` line per
content line; modified files render both headers, all old lines with
`-` and all new lines with `+`; deleted files render `--- a/<p>`,
`+++ /dev/null` and the old lines with `-`; unmodified paths render
nothing. -/
def chunksFor (head : List (String × String)) (work : List (String × FileInfo))
    (p : String) : List (List Char) :=
  match lookupFile work p, lookupBlob head p with
  | some fi, none =>
    ["--- /dev/null".data, "+++ b/".data ++ p.data] ++
      (splitOnChar '\n' fi.content.data).map (fun l => '+' :: l)
  | some fi, some old =>
    if fi.content = old then []
    else
      ["--- a/".data ++ p.data, "+++ b/".data ++ p.data] ++
        (splitOnChar '\n' old.data).map (fun l => '-' :: l) ++
        (splitOnChar '\n' fi.content.data).map (fun l => '+' :: l)
  | none, some old =>
    ["--- a/".data ++ p.data, "+++ /dev/null".data] ++
      (splitOnChar '\n' old.data).map (fun l => '-' :: l)
  | none, none => []

/-- `GitRepository.Diff("")` = `diffWorktreeVsHead`: the empty string on
a clean status, else the concatenation, path by path, of each chunk
followed by a newline. -/
def diffWorktreeVsHead (head : List (String × String))
    (work : List (String × FileInfo)) : String :=
  if isCleanB head work then ""
  else
    String.mk
      (((((statusPaths head work).map (chunksFor head work)).flatten).map
        (fun l => l ++ ['\n'])).flatten)

/-! ### Line lemmas for the rendered diff -/

theorem splitOnChar_ne_nil (sep : Char) : ∀ l : List Char, splitOnChar sep l ≠ [] := by
  intro l
  induction l with
  | nil => simp [splitOnChar]
  | cons c rest ih =>
    rw [splitOnChar]
    by_cases h : c = sep
    · simp [h]
    · rw [if_neg h]
      cases hs : splitOnChar sep rest with
      | nil => exact absurd hs ih
      | cons a as => simp

theorem sep_not_mem_splitOnChar (sep : Char) :
    ∀ (l x : List Char), x ∈ splitOnChar sep l → sep ∉ x := by
  intro l
  induction l with
  | nil =>
    intro x hx
    rw [splitOnChar, List.mem_singleton] at hx
    subst hx
    simp
  | cons c rest ih =>
    intro x hx
    rw [splitOnChar] at hx
    by_cases h : c = sep
    · rw [if_pos h, List.mem_cons] at hx
      rcases hx with rfl | hx
      · simp
      · exact ih x hx
    · rw [if_neg h] at hx
      cases hs : splitOnChar sep rest with
      | nil => exact absurd hs (splitOnChar_ne_nil sep rest)
      | cons a as =>
        rw [hs, List.mem_cons] at hx
        rcases hx with rfl | hx
        · intro hmem
          rcases List.mem_cons.mp hmem with h2 | h2
          · exact h h2.symm
          · exact ih a (by rw [hs]; exact List.mem_cons_self a as) h2
        · exact ih x (by rw [hs]; exact List.mem_cons_of_mem a hx)

theorem splitOnChar_append_line (sep : Char) :
    ∀ x y : List Char, sep ∉ x →
      splitOnChar sep (x ++ sep :: y) = x :: splitOnChar sep y := by
  intro x
  induction x with
  | nil =>
    intro y _
    rw [List.nil_append, splitOnChar, if_pos rfl]
  | cons c cs ih =>
    intro y hno
    have hc : c ≠ sep := fun h => hno (h ▸ List.mem_cons_self c cs)
    have hcs : sep ∉ cs := fun h => hno (List.mem_cons_of_mem c h)
    rw [List.cons_append, splitOnChar, if_neg hc, ih y hcs]

theorem splitOnChar_join_terminated (sep : Char) :
    ∀ ls : List (List Char), (∀ l ∈ ls, sep ∉ l) →
      splitOnChar sep ((ls.map (fun l => l ++ [sep])).flatten) = ls ++ [[]] := by
  intro ls
  induction ls with
  | nil =>
    intro _
    rfl
  | cons l rest ih =>
    intro hno
    rw [List.map_cons, List.flatten_cons, List.append_assoc, List.singleton_append,
      splitOnChar_append_line sep l _ (hno l (List.mem_cons_self l rest)),
      ih (fun x hx => hno x (List.mem_cons_of_mem l hx))]
    rfl

theorem validKey_no_newline {q : String} (h : validKey q = true) : '\n' ∉ q.data := by
  intro hmem
  rw [validKey] at h
  cases hd : q.data with
  | nil =>
    rw [hd] at hmem
    exact absurd hmem (by simp)
  | cons c cs =>
    rw [hd] at h hmem
    rcases List.mem_cons.mp hmem with rfl | hmem
    · rw [Bool.and_eq_true] at h
      exact absurd h.1 (by decide)
    · rw [Bool.and_eq_true, List.all_eq_true] at h
      have := h.2 '\n' hmem
      exact absurd this (by decide)

theorem mem_map_fst_writeFile (fs : List (String × FileInfo)) (p : String) (fi : FileInfo) :
    p ∈ (writeFile fs p fi).map Prod.fst := by
  induction fs with
  | nil => simp [writeFile]
  | cons e rest ih =>
    obtain ⟨q, old⟩ := e
    by_cases h : q = p
    · simp [writeFile, h]
    · simp only [writeFile, if_neg h, List.map_cons, List.mem_cons]
      exact Or.inr ih

theorem map_fst_writeFile_subset (fs : List (String × FileInfo)) (p : String) (fi : FileInfo) :
    ∀ q, q ∈ (writeFile fs p fi).map Prod.fst → q = p ∨ q ∈ fs.map Prod.fst := by
  induction fs with
  | nil =>
    intro q hq
    simp [writeFile] at hq
    exact Or.inl hq
  | cons e rest ih =>
    obtain ⟨r, old⟩ := e
    intro q hq
    by_cases h : r = p
    · rw [writeFile, if_pos h] at hq
      rcases List.mem_cons.mp hq with rfl | hq
      · exact Or.inl rfl
      · exact Or.inr (by simp only [List.map_cons, List.mem_cons]; exact Or.inr hq)
    · rw [writeFile, if_neg h] at hq
      rcases List.mem_cons.mp hq with rfl | hq
      · exact Or.inr (by simp)
      · rcases ih q hq with h1 | h1
        · exact Or.inl h1
        · exact Or.inr (by simp only [List.map_cons, List.mem_cons]; exact Or.inr h1)


/-! ## Claim theorems -/

/-- C1: for every valid key `k` and content `c`, after `Save(k,c)`
succeeds, `Get(k)` returns a `Memory` whose `Content` is byte-equal to
`c`, and `Exists(k)` returns `true`. -/
theorem c1_save_get_exists (st : RepoState) (k c : String) (now : Nat)
    (_hk : validKey k = true) :
    (∃ m : Memory,
      GitRepository.Get (GitRepository.Save st k c now) k = Except.ok m ∧
      m.content = c) ∧
    GitRepository.Exists (GitRepository.Save st k c now) k = true := by
  refine ⟨⟨⟨k, c, now, now⟩, ?_, rfl⟩, ?_⟩
  · simp [GitRepository.Get, GitRepository.Save, lookupFile_writeFile_self]
  · simp [GitRepository.Exists, GitRepository.Save, lookupFile_writeFile_self]

/-- Witness for C1 at the concrete key `a/b`, content `v1`. -/
theorem c1_save_get_exists_witness :
    (∃ m : Memory,
      GitRepository.Get (GitRepository.Save ⟨[], []⟩ "a/b" "v1" 0) "a/b" = Except.ok m ∧
      m.content = "v1") ∧
    GitRepository.Exists (GitRepository.Save ⟨[], []⟩ "a/b" "v1" 0) "a/b" = true :=
  c1_save_get_exists ⟨[], []⟩ "a/b" "v1" 0 (by decide)

/-- C9: for every valid key `k`, `Delete(k)` after `Save(k,_)` makes
`Exists(k)` return `false` and `Get(k)` return NotFound; `Delete(k)` when
no file exists at `k`'s mapped path returns NotFound. -/
theorem c9_delete_semantics (st : RepoState) (k c : String) (now : Nat)
    (_hk : validKey k = true) :
    (∃ st2 : RepoState,
      GitRepository.Delete (GitRepository.Save st k c now) k = Except.ok st2 ∧
      GitRepository.Exists st2 k = false ∧
      GitRepository.Get st2 k = Except.error MemErr.notFound) ∧
    (∀ st0 : RepoState, lookupFile st0.files k = none →
      GitRepository.Delete st0 k = Except.error MemErr.notFound) := by
  have hlook : lookupFile (GitRepository.Save st k c now).files k = some ⟨c, now⟩ := by
    simp [GitRepository.Save, lookupFile_writeFile_self]
  have hdel : GitRepository.Delete (GitRepository.Save st k c now) k =
      Except.ok
        { files := removeFile (GitRepository.Save st k c now).files k
          staged :=
            if (GitRepository.Save st k c now).staged.contains k
            then (GitRepository.Save st k c now).staged
            else k :: (GitRepository.Save st k c now).staged } := by
    simp [GitRepository.Delete, hlook]
  constructor
  · refine ⟨_, hdel, ?_, ?_⟩
    · simp [GitRepository.Exists, lookupFile_removeFile_self]
    · simp [GitRepository.Get, lookupFile_removeFile_self]
  · intro st0 h
    simp [GitRepository.Delete, h]

/-- Witness for C9 at the concrete key `a/b`. -/
theorem c9_delete_semantics_witness :
    (∃ st2 : RepoState,
      GitRepository.Delete (GitRepository.Save ⟨[], []⟩ "a/b" "v1" 0) "a/b" = Except.ok st2 ∧
      GitRepository.Exists st2 "a/b" = false ∧
      GitRepository.Get st2 "a/b" = Except.error MemErr.notFound) ∧
    (∀ st0 : RepoState, lookupFile st0.files "a/b" = none →
      GitRepository.Delete st0 "a/b" = Except.error MemErr.notFound) :=
  c9_delete_semantics ⟨[], []⟩ "a/b" "v1" 0 (by decide)

/-- C10: every `Memory` returned by `Get` or `List` has `CreatedAt` equal
to `UpdatedAt` (both are derived from the same file modification time). -/
theorem c10_timestamps_equal :
    (∀ (st : RepoState) (k : String) (m : Memory),
      GitRepository.Get st k = Except.ok m → m.createdAt = m.updatedAt) ∧
    (∀ (st : RepoState) (pfx : String) (m : Memory),
      m ∈ ListMemories st pfx → m.createdAt = m.updatedAt) := by
  constructor
  · intro st k m h
    unfold GitRepository.Get at h
    cases hl : lookupFile st.files k with
    | none => rw [hl] at h; exact absurd h (by simp)
    | some fi =>
      rw [hl] at h
      cases h
      rfl
  · intro st pfx m hm
    rw [ListMemories, List.mem_filterMap] at hm
    obtain ⟨e, _, he⟩ := hm
    split at he
    · exact absurd he (by simp)
    · split at he
      · exact absurd he (by simp)
      · split at he
        · exact absurd he (by simp)
        · exact Option.some.inj he ▸ rfl

/-- C2: `Commit(message)` fails when nothing is staged; when staged
changes exist it appends exactly one new entry to the log, authored
under the fixed store-owned identity (`mem`), whose `Message` matches
the given message (via the whitespace trim of `toCommit`) and whose
`Hash` is unique and non-empty. -/
theorem c2_commit_appends (st : HistState) (message : String) (now : Nat)
    (hinv : HistInv st) :
    (st.staged = false →
      commitOp st message now = Except.error EngErr.emptyCommit) ∧
    (st.staged = true →
      ∃ (c : Commit) (st' : HistState),
        commitOp st message now = Except.ok (c, st') ∧
        logOp st' 0 = c :: logOp st 0 ∧
        c.message = trimSpace message ∧
        (trimSpace message = message → c.message = message) ∧
        c.author = "mem" ∧
        c.hash ≠ "" ∧
        c.hash ∉ (logOp st 0).map (fun d => d.hash) ∧
        ((logOp st' 0).map (fun d => d.hash)).Nodup ∧
        HistInv st') := by
  constructor
  · intro h
    simp [commitOp, worktreeCommit, h]
  · intro h
    have hrun : commitOp st message now =
        Except.ok (toCommit (newEC st message now),
          ⟨newEC st message now :: st.log, false⟩) := by
      simp [commitOp, worktreeCommit, h, newEC]
    have hmaphash : (logOp st 0).map (fun d => d.hash) =
        st.log.map (fun c => c.hash) := by
      simp [logOp, List.map_map, Function.comp, toCommit]
    have hinv' : HistInv ⟨newEC st message now :: st.log, false⟩ := by
      unfold HistInv at hinv ⊢
      simp only [List.length_cons, List.map_cons, range_succ_reverse_map]
      rw [← hinv]
      rfl
    refine ⟨toCommit (newEC st message now),
      ⟨newEC st message now :: st.log, false⟩, hrun, ?_, rfl, ?_, rfl, ?_, ?_, ?_, hinv'⟩
    · simp [logOp]
    · intro he
      exact he
    · intro he
      have := congrArg String.length he
      rw [show (toCommit (newEC st message now)).hash = hashStr st.log.length from rfl,
        hashStr_length] at this
      simp at this
    · rw [hmaphash, hinv]
      exact hashStr_fresh st.log.length
    · have : (logOp ⟨newEC st message now :: st.log, false⟩ 0).map (fun d => d.hash) =
          ((List.range (st.log.length + 1)).reverse).map hashStr := by
        have h2 : (logOp ⟨newEC st message now :: st.log, false⟩ 0).map (fun d => d.hash) =
            (newEC st message now :: st.log).map (fun c => c.hash) := by
          simp [logOp, List.map_map, Function.comp, toCommit]
        rw [h2]
        exact hinv'
      rw [this]
      exact (List.nodup_reverse.mpr (List.nodup_range _)).map hashStr_injective

/-- Witness for C2: committing `m1` on a one-commit history with staged
changes appends one entry with a fresh non-empty hash. -/
theorem c2_commit_appends_witness :
    (∃ (c : Commit) (st' : HistState),
        commitOp ⟨[⟨hashStr 0, "init", "mem", 0, []⟩], true⟩ "m1" 5 = Except.ok (c, st') ∧
        logOp st' 0 = c :: logOp ⟨[⟨hashStr 0, "init", "mem", 0, []⟩], true⟩ 0 ∧
        c.message = trimSpace "m1" ∧
        (trimSpace "m1" = "m1" → c.message = "m1") ∧
        c.author = "mem" ∧
        c.hash ≠ "" ∧
        c.hash ∉ (logOp ⟨[⟨hashStr 0, "init", "mem", 0, []⟩], true⟩ 0).map (fun d => d.hash) ∧
        ((logOp st' 0).map (fun d => d.hash)).Nodup ∧
        HistInv st') :=
  (c2_commit_appends ⟨[⟨hashStr 0, "init", "mem", 0, []⟩], true⟩ "m1" 5
    (by unfold HistInv; rfl)).2 rfl

/-- The installed shim is itself recognised as managed. -/
theorem isManagedHook_hookScript : IsManagedHook (HookScript "post-commit") = true := by
  decide

/-- If `Install` succeeds, the hook file now holds the shim. -/
theorem installHook_ok_hook (st : HookDirState) (sc str scr : String) (force : Bool)
    (st' : HookDirState) (h : InstallHookExecute st sc str scr force = Except.ok st') :
    st'.hook = some (HookScript "post-commit") := by
  unfold InstallHookExecute at h
  split at h
  · split at h
    · split at h
      · exact absurd h (by simp)
      · injection h with h2
        subst h2
        rfl
    · injection h with h2
      subst h2
      rfl
  · injection h with h2
    subst h2
    rfl

/-- C8: `Resolve("global")` always returns the global scope even when a
project scope is discoverable; for any other hint, `Resolve` returns the
project scope when one is found and the global scope otherwise;
`Cascade()` returns `[project, global]` when a project scope exists and
`[global]` otherwise. -/
theorem c8_resolve_cascade :
    (∀ r : ScopeResolver, r.Resolve "global" = r.Global) ∧
    (∀ (r : ScopeResolver) (hint : String) (s : Scope),
      hint ≠ "global" → r.projectScope = some s → r.Resolve hint = s) ∧
    (∀ (r : ScopeResolver) (hint : String),
      hint ≠ "global" → r.projectScope = none → r.Resolve hint = r.Global) ∧
    (∀ (r : ScopeResolver) (s : Scope),
      r.projectScope = some s → r.Cascade = [s, r.Global]) ∧
    (∀ r : ScopeResolver, r.projectScope = none → r.Cascade = [r.Global]) := by
  refine ⟨?_, ?_, ?_, ?_, ?_⟩
  · intro r
    simp [ScopeResolver.Resolve]
  · intro r hint s hh hp
    simp [ScopeResolver.Resolve, hh, hp]
  · intro r hint hh hp
    simp [ScopeResolver.Resolve, hh, hp]
  · intro r s hp
    simp [ScopeResolver.Cascade, hp]
  · intro r hp
    simp [ScopeResolver.Cascade, hp]

/-- Witness for C8: a resolver that discovered a project scope resolves
an empty hint to it. -/
theorem c8_resolve_cascade_witness :
    ScopeResolver.Resolve
        ⟨"/home/u", some ⟨ScopeType.project, "/w", "/w/.mem"⟩⟩ "" =
      ⟨ScopeType.project, "/w", "/w/.mem"⟩ :=
  c8_resolve_cascade.2.1 ⟨"/home/u", some ⟨ScopeType.project, "/w", "/w/.mem"⟩⟩ ""
    ⟨ScopeType.project, "/w", "/w/.mem"⟩ (by decide) rfl

/-- C7: `Install` refuses to overwrite a pre-existing hook file lacking
the managed-hook marker unless `force` is true, in which case it first
writes the original to a suffixed backup file before installing the
shim; `Uninstall` after `Install` removes the managed hook and, if a
backup exists, restores it in place of the shim. -/
theorem c7_install_uninstall :
    (∀ (st : HookDirState) (sc str scr h : String),
      st.hook = some h → IsManagedHook h = false →
      InstallHookExecute st sc str scr false =
        Except.error "hook already exists (use --force to overwrite)") ∧
    (∀ (st : HookDirState) (sc str scr h : String),
      st.hook = some h → IsManagedHook h = false →
      ∃ st' : HookDirState,
        InstallHookExecute st sc str scr true = Except.ok st' ∧
        st'.bak = some h ∧
        st'.hook = some (HookScript "post-commit") ∧
        st'.cfg.enabled = true) ∧
    (∀ (st st' : HookDirState) (sc str scr : String) (force keep : Bool),
      InstallHookExecute st sc str scr force = Except.ok st' →
      ∃ st'' : HookDirState,
        UninstallHookExecute st' keep = Except.ok st'' ∧
        (st'.bak = none → st''.hook = none) ∧
        (∀ b, st'.bak = some b → st''.hook = some b ∧ st''.bak = none)) := by
  refine ⟨?_, ?_, ?_⟩
  · intro st sc str scr h hh hm
    simp [InstallHookExecute, hh, hm]
  · intro st sc str scr h hh hm
    refine ⟨⟨some (HookScript "post-commit"), some h, installCfg sc str scr⟩,
      ?_, rfl, rfl, rfl⟩
    simp [InstallHookExecute, hh, hm]
  · intro st st' sc str scr force keep hok
    have hhook := installHook_ok_hook st sc str scr force st' hok
    cases hb : st'.bak with
    | none =>
      refine ⟨if keep then { st' with hook := none }
              else { st' with hook := none, cfg := emptyHookCfg }, ?_, ?_, ?_⟩
      · cases keep <;>
          simp [UninstallHookExecute, hhook, hb, isManagedHook_hookScript]
      · intro _
        cases keep <;> rfl
      · intro b hbb
        exact absurd hbb (by simp)
    | some b0 =>
      refine ⟨if keep then { st' with hook := some b0, bak := none }
              else { st' with hook := some b0, bak := none, cfg := emptyHookCfg }, ?_, ?_, ?_⟩
      · cases keep <;>
          simp [UninstallHookExecute, hhook, hb, isManagedHook_hookScript]
      · intro hc
        exact absurd hc (by simp)
      · intro b hbb
        obtain rfl := Option.some.inj hbb
        constructor <;> cases keep <;> rfl

/-- Witness for C7: an unmanaged hook `echo hi` is refused without
force, and with force it is backed up; uninstalling after a plain
install removes the hook. -/
theorem c7_install_uninstall_witness :
    (InstallHookExecute ⟨some "echo hi", none, emptyHookCfg⟩ "project" "" "" false =
      Except.error "hook already exists (use --force to overwrite)") ∧
    (∃ st' : HookDirState,
      InstallHookExecute ⟨some "echo hi", none, emptyHookCfg⟩ "project" "" "" true =
        Except.ok st' ∧
      st'.bak = some "echo hi" ∧
      st'.hook = some (HookScript "post-commit") ∧
      st'.cfg.enabled = true) :=
  ⟨c7_install_uninstall.1 ⟨some "echo hi", none, emptyHookCfg⟩ "project" "" "" "echo hi"
      rfl (by decide),
   c7_install_uninstall.2.1 ⟨some "echo hi", none, emptyHookCfg⟩ "project" "" "" "echo hi"
      rfl (by decide)⟩

/-- C4: a diff containing a line `+++ b/<path>` with no paired
`--- a/<path>` line for the same path yields an output that lists the
path under added files, composed as the one line
`[<7-char hash>] <message> — <clause1>; <clause2>; …`; a diff with no
recognizable signal (all clause lists empty), and the empty diff,
yield the empty string (and no error: the Go error result is always
nil). -/
theorem c4_extract_strategy :
    (∀ (cc : CommitContext) (p : String),
      p ≠ "/dev/null" → p ≠ "" →
      ("+++ b/" ++ p) ∈ linesOf cc.diff →
      ("--- a/" ++ p) ∉ linesOf cc.diff →
      p.data ∈ newFilesOf cc.diff.data ∧
      (partsOf cc.diff.data).head? =
        some ("added files: ".data ++ joinSepL (", ".data) (newFilesOf cc.diff.data)) ∧
      StrategyExtract cc = composeLine cc.hash cc.message (partsOfStr cc.diff) ∧
      partsOfStr cc.diff ≠ []) ∧
    (∀ cc : CommitContext, partsOfStr cc.diff = [] → StrategyExtract cc = "") ∧
    (∀ cc : CommitContext, cc.diff = "" → StrategyExtract cc = "") := by
  refine ⟨?_, ?_, ?_⟩
  · intro cc p hdev hne hmem hnot
    have hmem' : ("+++ b/".data ++ p.data) ∈ splitOnChar '\n' cc.diff.data := by
      rw [linesOf, List.mem_map] at hmem
      obtain ⟨l, hl, he⟩ := hmem
      have hld : l = "+++ b/".data ++ p.data := by
        have h2 := congrArg String.data he
        simpa using h2
      rw [← hld]
      exact hl
    have hpd : p.data ≠ [] := by
      intro h0
      exact hne (string_data_inj (by rw [h0]))
    have hadd : p.data ∈ addedFileLines cc.diff.data := mem_addedFileLines hmem' hpd
    have hdev' : p.data ≠ "/dev/null".data := string_ne_data hdev
    have hnodel : p.data ∉ deletedFileLines cc.diff.data := by
      intro hdel
      obtain ⟨l, hl, rfl⟩ := mem_deletedFileLines_elim hdel
      apply hnot
      rw [linesOf, List.mem_map]
      exact ⟨_, hl, string_data_inj (by simp)⟩
    have hnew : p.data ∈ newFilesOf cc.diff.data := mem_newFilesOf hadd hdev' hnodel
    have hta : (newFilesOf cc.diff.data).isEmpty = false := by
      cases hnf : newFilesOf cc.diff.data with
      | nil =>
        rw [hnf] at hnew
        exact absurd hnew (by simp)
      | cons a as => rfl
    have hhead : (partsOf cc.diff.data).head? =
        some ("added files: ".data ++ joinSepL (", ".data) (newFilesOf cc.diff.data)) := by
      rw [partsOf, if_neg (by simp [hta])]
      simp
    have hdne : cc.diff ≠ "" := by
      intro h0
      rw [h0] at hmem'
      rw [show String.data "" = [] from rfl] at hmem'
      rw [show splitOnChar '\n' [] = [[]] from rfl] at hmem'
      rw [List.mem_singleton, List.append_eq_nil] at hmem'
      exact absurd hmem'.1 (by decide)
    have hpne : partsOfStr cc.diff ≠ [] := by
      rw [partsOfStr]
      intro h0
      rw [List.map_eq_nil_iff] at h0
      have h2 := congrArg List.head? h0
      rw [hhead] at h2
      exact absurd h2 (by simp)
    refine ⟨hnew, hhead, ?_, hpne⟩
    rw [StrategyExtract, if_neg hdne, if_neg (by simpa using hpne)]
  · intro cc h0
    rw [StrategyExtract]
    by_cases hd : cc.diff = ""
    · rw [if_pos hd]
    · rw [if_neg hd, if_pos (by simp [h0])]
  · intro cc h0
    rw [StrategyExtract, if_pos h0]

/-- Witness for C4: the diff adding `new.go` lists it under added files
and is composed as the one-line summary. -/
theorem c4_extract_strategy_witness :
    "new.go".data ∈
      newFilesOf (String.data "--- /dev/null\n+++ b/new.go\n") ∧
    (partsOf (String.data "--- /dev/null\n+++ b/new.go\n")).head? =
      some ("added files: ".data ++ joinSepL (", ".data)
        (newFilesOf (String.data "--- /dev/null\n+++ b/new.go\n"))) ∧
    StrategyExtract
        ⟨"abcdef0123", "add new file", "a", "--- /dev/null\n+++ b/new.go\n"⟩ =
      composeLine "abcdef0123" "add new file"
        (partsOfStr "--- /dev/null\n+++ b/new.go\n") ∧
    partsOfStr "--- /dev/null\n+++ b/new.go\n" ≠ [] :=
  c4_extract_strategy.1
    ⟨"abcdef0123", "add new file", "a", "--- /dev/null\n+++ b/new.go\n"⟩
    "new.go" (by decide) (by decide) (by decide) (by decide)

/-- Counterexample to C3 as stated: with hooks enabled and a non-empty
diff, calling `RunHook` with type `pre-commit` indeed runs no strategy
and stores nothing, but it does NOT return without error — the CLI
runner rejects the unsupported type with an error. -/
theorem c3_counterexample :
    ("pre-commit" : String) ≠ "post-commit" ∧
    (hookRun true ⟨true, "", "extract", "", "hooks/commits", false⟩ none
        "pre-commit" ⟨"h", "m", "a", "d"⟩).err =
      some "unsupported hook type: pre-commit" ∧
    (hookRun true ⟨true, "", "extract", "", "hooks/commits", false⟩ none
        "pre-commit" ⟨"h", "m", "a", "d"⟩).err ≠ none := by
  refine ⟨by decide, rfl, by decide⟩

/-- C3 (amended): `RunHook(type, ctx)` stores nothing and runs no
strategy unless `type = "post-commit"`, the configuration loaded with
`Enabled` true, and `ctx.Diff` is non-empty. When the configuration is
missing or disabled or the diff is empty (with the correct type) it
returns without error; a type other than `post-commit` is rejected with
an `unsupported hook type` error while still being a no-op. -/
theorem c3_hook_gating :
    (∀ (hc : Bool) (cfg : PostCommitHookConfig) (pr : Option (String → String))
        (t : String) (cc : CommitContext),
      ¬ (t = "post-commit" ∧ hc = true ∧ cfg.enabled = true ∧ cc.diff ≠ "") →
      (hookRun hc cfg pr t cc).stores = [] ∧
      (hookRun hc cfg pr t cc).scriptRan = false) ∧
    (∀ (hc : Bool) (cfg : PostCommitHookConfig) (pr : Option (String → String))
        (cc : CommitContext),
      hc = false ∨ cfg.enabled = false ∨ cc.diff = "" →
      hookRun hc cfg pr "post-commit" cc = ⟨[], false, none⟩) ∧
    (∀ (hc : Bool) (cfg : PostCommitHookConfig) (pr : Option (String → String))
        (t : String) (cc : CommitContext),
      t ≠ "post-commit" →
      hookRun hc cfg pr t cc =
        ⟨[], false, some ("unsupported hook type: " ++ t)⟩) := by
  have hexec : ∀ (hc : Bool) (cfg : PostCommitHookConfig)
      (pr : Option (String → String)) (cc : CommitContext),
      hc = false ∨ cfg.enabled = false ∨ cc.diff = "" →
      RunHookExecute hc cfg pr cc = ⟨[], false, none⟩ := by
    intro hc cfg pr cc hfail
    rcases hfail with h1 | h1 | h1
    · rw [RunHookExecute, if_pos (by simp [h1])]
    · by_cases h0 : hc = true
      · rw [RunHookExecute, if_neg (by simp [h0]), if_pos (by simp [h1])]
      · rw [RunHookExecute, if_pos (by revert h0; cases hc <;> simp)]
    · by_cases h0 : hc = true
      · by_cases h2 : cfg.enabled = true
        · rw [RunHookExecute, if_neg (by simp [h0]), if_neg (by simp [h2]), if_pos h1]
        · rw [RunHookExecute, if_neg (by simp [h0]),
            if_pos (by revert h2; cases cfg.enabled <;> simp)]
      · rw [RunHookExecute, if_pos (by revert h0; cases hc <;> simp)]
  refine ⟨?_, ?_, ?_⟩
  · intro hc cfg pr t cc hfail
    by_cases ht : t = "post-commit"
    · subst ht
      rw [hookRun, if_neg (by simp)]
      have hone : hc = false ∨ cfg.enabled = false ∨ cc.diff = "" := by
        by_cases h1 : hc = true
        · by_cases h2 : cfg.enabled = true
          · by_cases h3 : cc.diff = ""
            · exact Or.inr (Or.inr h3)
            · exact absurd ⟨rfl, h1, h2, h3⟩ hfail
          · exact Or.inr (Or.inl (by revert h2; cases cfg.enabled <;> simp))
        · exact Or.inl (by revert h1; cases hc <;> simp)
      rw [hexec hc cfg pr cc hone]
      exact ⟨rfl, rfl⟩
    · rw [hookRun, if_pos ht]
      exact ⟨rfl, rfl⟩
  · intro hc cfg pr cc hfail
    rw [hookRun, if_neg (by simp)]
    exact hexec hc cfg pr cc hfail
  · intro hc cfg pr t cc ht
    rw [hookRun, if_pos ht]

/-- Witness for C3 (amended): a disabled configuration with the correct
type is a silent no-op, and a wrong type is rejected. -/
theorem c3_hook_gating_witness :
    (hookRun true ⟨false, "", "extract", "", "hooks/commits", false⟩ none
        "post-commit" ⟨"h", "m", "a", "d"⟩ = ⟨[], false, none⟩) ∧
    (hookRun true ⟨true, "", "extract", "", "hooks/commits", false⟩ none
        "pre-commit" ⟨"h", "m", "a", "d"⟩ =
      ⟨[], false, some ("unsupported hook type: " ++ "pre-commit")⟩) :=
  ⟨c3_hook_gating.2.1 true ⟨false, "", "extract", "", "hooks/commits", false⟩ none
      ⟨"h", "m", "a", "d"⟩ (Or.inr (Or.inl rfl)),
   c3_hook_gating.2.2 true ⟨true, "", "extract", "", "hooks/commits", false⟩ none
      "pre-commit" ⟨"h", "m", "a", "d"⟩ (by decide)⟩

theorem noNl_cons {m : Char} {l : List Char} (hm : ('\n' : Char) ≠ m) (hl : '\n' ∉ l) :
    '\n' ∉ m :: l := by
  intro h
  rcases List.mem_cons.mp h with h2 | h2
  · exact hm h2
  · exact hl h2

theorem noNl_append {a b : List Char} (ha : '\n' ∉ a) (hb : '\n' ∉ b) : '\n' ∉ a ++ b := by
  intro h
  rcases List.mem_append.mp h with h2 | h2
  · exact ha h2
  · exact hb h2

theorem chunksFor_no_newline (head : List (String × String)) (work : List (String × FileInfo))
    (q : String) (hq : validKey q = true) :
    ∀ ch ∈ chunksFor head work q, '\n' ∉ ch := by
  intro ch hch
  unfold chunksFor at hch
  split at hch
  · rcases List.mem_append.mp hch with h3 | h3
    · rcases List.mem_cons.mp h3 with rfl | h3
      · decide
      · rcases List.mem_cons.mp h3 with rfl | h3
        · exact noNl_append (by decide) (validKey_no_newline hq)
        · exact absurd h3 (by simp)
    · obtain ⟨l, hl, rfl⟩ := List.mem_map.mp h3
      exact noNl_cons (by decide) (sep_not_mem_splitOnChar '\n' _ l hl)
  · split at hch
    · exact absurd hch (by simp)
    · rcases List.mem_append.mp hch with h3 | h3
      · rcases List.mem_append.mp h3 with h4 | h4
        · rcases List.mem_cons.mp h4 with rfl | h4
          · exact noNl_append (by decide) (validKey_no_newline hq)
          · rcases List.mem_cons.mp h4 with rfl | h4
            · exact noNl_append (by decide) (validKey_no_newline hq)
            · exact absurd h4 (by simp)
        · obtain ⟨l, hl, rfl⟩ := List.mem_map.mp h4
          exact noNl_cons (by decide) (sep_not_mem_splitOnChar '\n' _ l hl)
      · obtain ⟨l, hl, rfl⟩ := List.mem_map.mp h3
        exact noNl_cons (by decide) (sep_not_mem_splitOnChar '\n' _ l hl)
  · rcases List.mem_append.mp hch with h3 | h3
    · rcases List.mem_cons.mp h3 with rfl | h3
      · exact noNl_append (by decide) (validKey_no_newline hq)
      · rcases List.mem_cons.mp h3 with rfl | h3
        · decide
        · exact absurd h3 (by simp)
    · obtain ⟨l, hl, rfl⟩ := List.mem_map.mp h3
      exact noNl_cons (by decide) (sep_not_mem_splitOnChar '\n' _ l hl)
  · exact absurd hch (by simp)

/-- Counterexample to C5 as stated: saving content identical to the
HEAD version of the key leaves the status clean, so `Diff("")` right
after this `Save` (with no `Commit`) is the empty string, not a
non-empty diff. -/
theorem c5_counterexample :
    diffWorktreeVsHead [("k", "v")]
      (GitRepository.Save ⟨[("k", ⟨"v", 0⟩)], []⟩ "k" "v" 1).files = "" := by
  decide

/-- C5 (amended): `Diff("")` on a clean working tree returns the empty
string; after a `Save` whose content differs from the HEAD blob at that
key (in a store whose paths are valid keys), `Diff("")` without a
`Commit` is non-empty and contains every line of the newly saved
content as a `+` line of the rendered per-path block. -/
theorem c5_diff_clean_and_after_save (head : List (String × String)) (st : RepoState)
    (k c : String) (now : Nat)
    (hk : validKey k = true)
    (hwork : ∀ q ∈ st.files.map Prod.fst, validKey q = true)
    (hhead : ∀ q ∈ head.map Prod.fst, validKey q = true)
    (hch : lookupBlob head k ≠ some c) :
    (∀ (hd2 : List (String × String)) (wk : List (String × FileInfo)),
      isCleanB hd2 wk = true → diffWorktreeVsHead hd2 wk = "") ∧
    diffWorktreeVsHead head (GitRepository.Save st k c now).files ≠ "" ∧
    (∀ l ∈ splitOnChar '\n' c.data,
      ('+' :: l) ∈ splitOnChar '\n'
        (diffWorktreeVsHead head (GitRepository.Save st k c now).files).data) := by
  have hlook : lookupFile (GitRepository.Save st k c now).files k = some ⟨c, now⟩ :=
    lookupFile_writeFile_self st.files k ⟨c, now⟩
  have hmemk : k ∈ statusPaths head (GitRepository.Save st k c now).files :=
    List.mem_dedup.mpr
      (List.mem_append.mpr (Or.inl (mem_map_fst_writeFile st.files k ⟨c, now⟩)))
  have hcleanSt : statusClean head (GitRepository.Save st k c now).files k = false := by
    unfold statusClean
    rw [hlook]
    cases h2 : lookupBlob head k with
    | none => rfl
    | some old =>
      have hne : c ≠ old := fun h => hch (by rw [h2, h])
      simp [hne]
  have hcleanF : isCleanB head (GitRepository.Save st k c now).files = false := by
    unfold isCleanB
    rw [List.all_eq_false]
    exact ⟨k, hmemk, by simp [hcleanSt]⟩
  have hdiff : diffWorktreeVsHead head (GitRepository.Save st k c now).files =
      String.mk
        (((((statusPaths head (GitRepository.Save st k c now).files).map
          (chunksFor head (GitRepository.Save st k c now).files)).flatten).map
            (fun l => l ++ ['\n'])).flatten) := by
    rw [diffWorktreeVsHead, if_neg (by simp [hcleanF])]
  have hplus : ∀ l ∈ splitOnChar '\n' c.data,
      ('+' :: l) ∈ chunksFor head (GitRepository.Save st k c now).files k := by
    intro l hl
    cases h2 : lookupBlob head k with
    | none =>
      have hck : chunksFor head (GitRepository.Save st k c now).files k =
          ["--- /dev/null".data, "+++ b/".data ++ k.data] ++
            (splitOnChar '\n' c.data).map (fun l => '+' :: l) := by
        unfold chunksFor
        rw [hlook, h2]
      rw [hck]
      exact List.mem_append.mpr (Or.inr (List.mem_map.mpr ⟨l, hl, rfl⟩))
    | some old =>
      have hne : c ≠ old := fun h => hch (by rw [h2, h])
      have hck : chunksFor head (GitRepository.Save st k c now).files k =
          ["--- a/".data ++ k.data, "+++ b/".data ++ k.data] ++
            (splitOnChar '\n' old.data).map (fun l => '-' :: l) ++
            (splitOnChar '\n' c.data).map (fun l => '+' :: l) := by
        unfold chunksFor
        rw [hlook, h2]
        simp [hne]
      rw [hck]
      exact List.mem_append.mpr (Or.inr (List.mem_map.mpr ⟨l, hl, rfl⟩))
  have hninall : ∀ ch ∈ ((statusPaths head (GitRepository.Save st k c now).files).map
      (chunksFor head (GitRepository.Save st k c now).files)).flatten, '\n' ∉ ch := by
    intro ch hc2
    rw [List.mem_flatten] at hc2
    obtain ⟨chunks, hc3, hc4⟩ := hc2
    rw [List.mem_map] at hc3
    obtain ⟨q, hq, rfl⟩ := hc3
    have hvq : validKey q = true := by
      rcases List.mem_append.mp (List.mem_dedup.mp hq) with h5 | h5
      · rcases map_fst_writeFile_subset st.files k ⟨c, now⟩ q h5 with rfl | h5
        · exact hk
        · exact hwork q h5
      · exact hhead q h5
    exact chunksFor_no_newline head (GitRepository.Save st k c now).files q hvq ch hc4
  have hlines : splitOnChar '\n'
      (diffWorktreeVsHead head (GitRepository.Save st k c now).files).data =
      ((statusPaths head (GitRepository.Save st k c now).files).map
        (chunksFor head (GitRepository.Save st k c now).files)).flatten ++ [[]] := by
    rw [hdiff]
    exact splitOnChar_join_terminated '\n' _ hninall
  have hmemline : ∀ l ∈ splitOnChar '\n' c.data,
      ('+' :: l) ∈ splitOnChar '\n'
        (diffWorktreeVsHead head (GitRepository.Save st k c now).files).data := by
    intro l hl
    rw [hlines]
    exact List.mem_append.mpr (Or.inl (List.mem_flatten.mpr
      ⟨chunksFor head (GitRepository.Save st k c now).files k,
       List.mem_map.mpr ⟨k, hmemk, rfl⟩, hplus l hl⟩))
  refine ⟨?_, ?_, hmemline⟩
  · intro hd2 wk hcl
    rw [diffWorktreeVsHead, if_pos hcl]
  · intro h0
    cases hS : splitOnChar '\n' c.data with
    | nil => exact absurd hS (splitOnChar_ne_nil '\n' c.data)
    | cons l0 ls =>
      have h1 := hmemline l0 (by rw [hS]; exact List.mem_cons_self l0 ls)
      rw [h0] at h1
      rw [show (String.data "") = [] from rfl] at h1
      rw [show splitOnChar '\n' ([] : List Char) = [[]] from rfl] at h1
      rw [List.mem_singleton] at h1
      exact absurd h1 (by simp)

/-- Witness for C5 (amended): a clean one-file tree diffs to the empty
string, and saving `v` at the fresh key `a` over an empty tree gives a
non-empty diff whose lines include `+v`. -/
theorem c5_diff_clean_and_after_save_witness :
    diffWorktreeVsHead [("b", "w")] [("b", ⟨"w", 0⟩)] = "" ∧
    diffWorktreeVsHead [] (GitRepository.Save ⟨[], []⟩ "a" "v" 0).files ≠ "" ∧
    ('+' :: "v".data) ∈ splitOnChar '\n'
      (diffWorktreeVsHead [] (GitRepository.Save ⟨[], []⟩ "a" "v" 0).files).data :=
  ⟨(c5_diff_clean_and_after_save [] ⟨[], []⟩ "a" "v" 0 (by decide) (by simp) (by simp)
      (by decide)).1 [("b", "w")] [("b", ⟨"w", 0⟩)] (by decide),
   (c5_diff_clean_and_after_save [] ⟨[], []⟩ "a" "v" 0 (by decide) (by simp) (by simp)
      (by decide)).2.1,
   (c5_diff_clean_and_after_save [] ⟨[], []⟩ "a" "v" 0 (by decide) (by simp) (by simp)
      (by decide)).2.2 ("v".data) (by decide)⟩

theorem strHasPre_empty (p : String) : strHasPre p "" = true := rfl

/-- Counterexample to C6 as stated: `a/.mem/b` passes `NewKey`
validation, so a memory can exist at it (`Exists` is true after it is
written), and its key has `""` as a literal prefix — yet `List("")`
omits it, because the walk prunes every directory named `.mem` at any
depth. So `List` does not return exactly the prefix-matching entries. -/
theorem c6_counterexample :
    validKey "a/.mem/b" = true ∧
    GitRepository.Exists ⟨[("a/.mem/b", ⟨"v", 0⟩)], []⟩ "a/.mem/b" = true ∧
    strHasPre "a/.mem/b" "" = true ∧
    ListMemories ⟨[("a/.mem/b", ⟨"v", 0⟩)], []⟩ "" = [] := by
  decide

/-- C6 (amended): `List(prefix)` returns exactly the entries whose key
has `prefix` as a literal string prefix (segment-unaware), is a valid
key, and is walk-visible — i.e. no path component equal to `.mem` or
`.mem-init` and a base name other than `.mem-init`, which in particular
excludes the metadata directory and the initialization sentinel;
`List("")` returns all such walk-visible valid keys. -/
theorem c6_list_filter (st : RepoState) (pfx : String) :
    ((ListMemories st pfx).map fun m => m.key) =
      (st.files.map Prod.fst).filter
        (fun p => walkVisible p && strHasPre p pfx && validKey p) ∧
    ((ListMemories st "").map fun m => m.key) =
      (st.files.map Prod.fst).filter (fun p => walkVisible p && validKey p) ∧
    (∀ m ∈ ListMemories st pfx,
      strHasPre m.key pfx = true ∧ walkVisible m.key = true ∧ validKey m.key = true) := by
  have hmain : ∀ (fs : List (String × FileInfo)) (staged : List String) (q : String),
      ((ListMemories ⟨fs, staged⟩ q).map fun m => m.key) =
        (fs.map Prod.fst).filter
          (fun p => walkVisible p && strHasPre p q && validKey p) := by
    intro fs staged q
    induction fs with
    | nil => rfl
    | cons e rest ih =>
      obtain ⟨p, fi⟩ := e
      by_cases h1 : walkVisible p
      · by_cases h2 : strHasPre p q
        · by_cases h3 : validKey p
          · simpa [ListMemories, List.filterMap_cons, h1, h2, h3] using ih
          · simpa [ListMemories, List.filterMap_cons, h1, h2, h3] using ih
        · have hq : q ≠ "" := by
            intro he
            rw [he, strHasPre_empty] at h2
            exact h2 rfl
          simpa [ListMemories, List.filterMap_cons, h1, h2, hq] using ih
      · simpa [ListMemories, List.filterMap_cons, h1] using ih
  obtain ⟨fs, staged⟩ := st
  refine ⟨hmain fs staged pfx, ?_, ?_⟩
  · rw [hmain fs staged ""]
    exact List.filter_congr fun p _ => by rw [strHasPre_empty, Bool.and_true]
  · intro m hm
    rw [ListMemories, List.mem_filterMap] at hm
    obtain ⟨e, he, hf⟩ := hm
    split at hf
    · exact absurd hf (by simp)
    · split at hf
      · exact absurd hf (by simp)
      · split at hf
        · exact absurd hf (by simp)
        · rename_i h1 h2 h3
          obtain rfl := (Option.some.inj hf).symm
          refine ⟨?_, ?_, ?_⟩
          · by_cases hq : pfx = ""
            · rw [hq]
              exact strHasPre_empty e.1
            · revert h2
              cases hsp : strHasPre e.1 pfx
              · intro h2
                exact absurd (by simp [hq, hsp]) h2
              · intro _
                rfl
          · revert h1
            cases hv : walkVisible e.1
            · intro h1
              exact absurd (by simp [hv]) h1
            · intro _
              rfl
          · revert h3
            cases hk : validKey e.1
            · intro h3
              exact absurd (by simp [hk]) h3
            · intro _
              rfl

/-- Witness for C6 (amended): a concrete two-file store where one key
is hidden by the `.mem` pruning. -/
theorem c6_list_filter_witness :
    ((ListMemories ⟨[("a/b", ⟨"v", 0⟩), ("a/.mem/b", ⟨"w", 0⟩)], []⟩ "a").map
        fun m => m.key) =
      (([("a/b", ⟨"v", 0⟩), ("a/.mem/b", ⟨"w", 0⟩)] :
          List (String × FileInfo)).map Prod.fst).filter
        (fun p => walkVisible p && strHasPre p "a" && validKey p) :=
  (c6_list_filter ⟨[("a/b", ⟨"v", 0⟩), ("a/.mem/b", ⟨"w", 0⟩)], []⟩ "a").1

/-- Witness for C10: a concrete `Get` result has equal timestamps. -/
theorem c10_timestamps_equal_witness :
    (Memory.mk "a" "v" 3 3).createdAt = (Memory.mk "a" "v" 3 3).updatedAt :=
  c10_timestamps_equal.1 ⟨[("a", ⟨"v", 3⟩)], []⟩ "a" (Memory.mk "a" "v" 3 3) rfl

end Memories
